import Mathlib

/-!
Verification of the NITF header decoder of `ossim_oxide`
(`src/model/nitf/mod.rs`), as a shallow embedding.

A NITF buffer is a `List Nat` of bytes.  Field maps are association
lists from field tag to decoded string value, with the replace-on-equal
insertion semantics of Rust's `BTreeMap::insert` (only lookup and
replacement semantics are relied on; entry order is never used by the
claims).  Every failure of the Rust code is a *panic* (`unwrap`,
out-of-bounds slicing, arithmetic overflow); the source defines no
recoverable error values and `NITF::new` never returns `Err`.  Panics
are modelled as `Except.error` carrying an `RErr` naming the kind of
panic.  `String::from_utf8` is modelled byte-transparently
(`Char.ofNat` per byte), which is exact on ASCII inputs — every
concrete buffer below is ASCII — and `str::trim` is modelled on the
six ASCII whitespace bytes, which coincides with Rust on ASCII.
-/

/-- Kind of Rust panic (process abort) the decoder can hit.  The source
has no recoverable error type: every failure aborts the process. -/
inductive RErr where
  /-- Slice or index out of the buffer's bounds (`nitf[a..b]` with `b > len`). -/
  | idxOOB : RErr
  /-- `Option::unwrap` on `None` or `Result::unwrap` on `Err` (failed
  `BTreeMap::get` or failed `str::parse::<usize>`). -/
  | unwrapNone : RErr
  /-- Arithmetic overflow panic (`usize` subtraction underflow in the
  extended-header loop bound; in release mode the wrapped bound makes the
  first oversized slice panic instead, so both builds abort here). -/
  | ovfl : RErr
  /-- Fuel exhaustion of the modelled TLV loop; unreachable for the fuel
  the call sites supply (each iteration consumes at least 11 bytes of the
  bound), kept to make the recursion structural. -/
  | fuelOut : RErr
deriving DecidableEq, Repr

/-- Field maps: ordered association lists, keys unique, with
`BTreeMap::insert` replace-on-equal-key semantics. -/
abbrev FieldMap := List (String × String)

/-- Lookup, `BTreeMap::get`. -/
def getF : FieldMap → String → Option String
  | [], _ => none
  | (k', v') :: rest, k => if k' = k then some v' else getF rest k

/-- Insert, `BTreeMap::insert`: replaces the value when the key is
present, appends otherwise. -/
def insertF : FieldMap → String → String → FieldMap
  | [], k, v => [(k, v)]
  | (k', v') :: rest, k, v =>
      if k' = k then (k, v) :: rest else (k', v') :: insertF rest k v

/-- Fold `insertF` over a list of entries. -/
def insertList (m : FieldMap) (l : List (String × String)) : FieldMap :=
  l.foldl (fun acc p => insertF acc p.1 p.2) m

/-- The bytes `buf[c..c+w]`; `none` models the Rust slice panic when the
range leaves the buffer. -/
def sliceB (buf : List Nat) (c w : Nat) : Option (List Nat) :=
  if c + w ≤ buf.length then some ((buf.drop c).take w) else none

/-- Byte-transparent text decoding (`String::from_utf8(..).unwrap()`;
exact on ASCII). -/
def bytesToString (bs : List Nat) : String :=
  String.mk (bs.map Char.ofNat)

/-- `sliceB` in the panic monad. -/
def sliceE (buf : List Nat) (c w : Nat) : Except RErr (List Nat) :=
  match sliceB buf c w with
  | some bs => .ok bs
  | none => .error .idxOOB

/-- Slice then decode as text. -/
def readStr (buf : List Nat) (c w : Nat) : Except RErr String :=
  (sliceE buf c w).map bytesToString

/-- ASCII whitespace, the bytes Rust's `str::trim` strips from ASCII
text (space, tab, LF, VT, FF, CR). -/
def isWs (ch : Char) : Bool :=
  ch == ' ' || ch == '\t' || ch == '\n' || ch == '\r' ||
  ch == Char.ofNat 11 || ch == Char.ofNat 12

/-- Strip leading and trailing ASCII whitespace from a character list. -/
def trimChars (l : List Char) : List Char :=
  (((l.dropWhile isWs).reverse.dropWhile isWs)).reverse

/-- `str::trim().to_string()` restricted to ASCII whitespace. -/
def trimAscii (s : String) : String :=
  String.mk (trimChars s.data)

/-- The source's manual decimal accumulation over the raw bytes of a
count field: `(byte as i32 - 48) * 10^index`, summed.  It performs no
digit validation, so the result can be negative for non-digit bytes. -/
def manualDec (bs : List Nat) : Int :=
  bs.foldl (fun acc b => acc * 10 + ((b : Int) - 48)) 0

/-- `str::parse::<usize>()`: an optional leading `+`, then one or more
ASCII digits (overflow is ignored; every field parsed this way is at
most 12 digits). -/
def parseUsize (s : String) : Option Nat :=
  let l := match s.data with
    | '+' :: rest => rest
    | l => l
  if l = [] then none
  else if l.all (fun ch => ch.isDigit) then
    some (l.foldl (fun a ch => a * 10 + (ch.toNat - 48)) 0)
  else none

/-- Lookup a field and parse it as the source's `get(..).parse::<usize>()`. -/
def getNum (m : FieldMap) (k : String) : Option Nat :=
  (getF m k).bind parseUsize

/-- `Option::unwrap`, as a panic. -/
def unwrapO : Option α → Except RErr α
  | some a => .ok a
  | none => .error .unwrapNone

/-- The decimal digit character of `n < 10`. -/
def digitChar (n : Nat) : Char := Char.ofNat (48 + n)

/-- Decimal rendering helper (fuel-structural; fuel `n+1` suffices). -/
def natReprAux : Nat → Nat → List Char
  | 0, _ => []
  | fuel + 1, n => if n = 0 then [] else natReprAux fuel (n / 10) ++ [digitChar (n % 10)]

/-- Decimal rendering of a `Nat`, as Rust's `{}` prints it. -/
def natRepr (n : Nat) : String :=
  if n = 0 then "0" else String.mk (natReprAux (n + 1) n)

/-- Rust's `format!("{:03}", n)`: zero-padded to three digits below
1000, plain decimal above. -/
def pad3 (n : Nat) : String :=
  if n < 1000 then
    String.mk [digitChar (n / 100), digitChar (n / 10 % 10), digitChar (n % 10)]
  else natRepr n

/-- Uppercase hex digit. -/
def hexDigit (n : Nat) : Char :=
  if n < 10 then Char.ofNat (48 + n) else Char.ofNat (55 + n)

/-- Rust's `format!("{:02X}", b)` for a byte. -/
def hex2 (n : Nat) : String := String.mk [hexDigit (n / 16), hexDigit (n % 16)]

/-- One fixed-width field of the header layout, naming the exact
source pattern used for it. -/
inductive FieldStep where
  /-- `insert(key, from_utf8(slice).unwrap())` — raw, unconditional. -/
  | raw (key : String) (w : Nat) : FieldStep
  /-- `insert(key, from_utf8(slice).unwrap().trim().to_string())` — trimmed, unconditional. -/
  | trimF (key : String) (w : Nat) : FieldStep
  /-- guarded on the trimmed slice being non-empty; stores the trimmed value. -/
  | optT (key : String) (w : Nat) : FieldStep
  /-- guarded on the trimmed slice being non-empty; stores the raw value. -/
  | optR (key : String) (w : Nat) : FieldStep
  /-- 14-byte date-time composite `y/m/d h:m:s`, unconditional. -/
  | dateTime (key : String) : FieldStep
  /-- 8-byte date composite `y/m/d`, guarded, stores the trimmed composite. -/
  | dateOptT (key : String) : FieldStep
  /-- 8-byte date composite `y/m/d`, guarded, stores the raw composite. -/
  | dateOptR (key : String) : FieldStep
  /-- 3 raw bytes rendered `0xRRGGBB` (file background colour). -/
  | bkgc (key : String) : FieldStep
deriving DecidableEq, Repr

/-- Execute one `FieldStep` at cursor `c`, mirroring the corresponding
source block byte for byte. -/
def runStep (buf : List Nat) (m : FieldMap) (c : Nat) : FieldStep → Except RErr (FieldMap × Nat)
  | .raw key w => do
      let s ← readStr buf c w
      .ok (insertF m key s, c + w)
  | .trimF key w => do
      let s ← readStr buf c w
      .ok (insertF m key (trimAscii s), c + w)
  | .optT key w => do
      let s ← readStr buf c w
      .ok (if trimAscii s = "" then m else insertF m key (trimAscii s), c + w)
  | .optR key w => do
      let s ← readStr buf c w
      .ok (if trimAscii s = "" then m else insertF m key s, c + w)
  | .dateTime key => do
      let y ← readStr buf c 4
      let mo ← readStr buf (c + 4) 2
      let d ← readStr buf (c + 6) 2
      let h ← readStr buf (c + 8) 2
      let mi ← readStr buf (c + 10) 2
      let se ← readStr buf (c + 12) 2
      .ok (insertF m key (y ++ "/" ++ mo ++ "/" ++ d ++ " " ++ h ++ ":" ++ mi ++ ":" ++ se), c + 14)
  | .dateOptT key => do
      let s ← readStr buf c 8
      let y ← readStr buf c 4
      let mo ← readStr buf (c + 4) 2
      let d ← readStr buf (c + 6) 2
      .ok (if trimAscii s = "" then m
           else insertF m key (trimAscii (y ++ "/" ++ mo ++ "/" ++ d)), c + 8)
  | .dateOptR key => do
      let s ← readStr buf c 8
      let y ← readStr buf c 4
      let mo ← readStr buf (c + 4) 2
      let d ← readStr buf (c + 6) 2
      .ok (if trimAscii s = "" then m
           else insertF m key (y ++ "/" ++ mo ++ "/" ++ d), c + 8)
  | .bkgc key => do
      let bs ← sliceE buf c 3
      match bs with
      | [b0, b1, b2] =>
          .ok (insertF m key ("0x" ++ hex2 b0 ++ hex2 b1 ++ hex2 b2), c + 3)
      | _ => .error .idxOOB

/-- Run a sequence of field steps, threading map and cursor. -/
def runSteps (buf : List Nat) : List FieldStep → FieldMap → Nat → Except RErr (FieldMap × Nat)
  | [], m, c => .ok (m, c)
  | st :: rest, m, c => do
      let p ← runStep buf m c st
      runSteps buf rest p.1 p.2

/-- The fixed-width fields of the file header before the segment
tables, in source order (`parse_header`, cursor 0 through 360). -/
def fileFixedSteps : List FieldStep :=
  [.raw "FHDR" 4, .raw "FVER" 5, .raw "CLEVEL" 2, .raw "STYPE" 4,
   .trimF "OSTAID" 10, .dateTime "FDT", .optT "FTITLE" 80,
   .raw "FSCLAS" 1, .optR "FSCLSY" 2, .optT "FSCODE" 11, .optT "FSCTLH" 2,
   .optT "FSREL" 20, .optT "FSDCTP" 2, .dateOptT "FSDCDT", .optT "FSDCXM" 4,
   .optT "FSDG" 1, .dateOptR "FSDGDT", .optT "FSCLTX" 43, .optR "FSCATP" 1,
   .optT "FSCAUT" 40, .optR "FSCRSN" 1, .dateOptT "FSSRDT", .optT "FSCLTN" 15,
   .trimF "FSCOP" 5, .trimF "FSCPYS" 5, .trimF "ENCRYP" 1, .bkgc "FBKGC",
   .optT "ONAME" 24, .optT "OPHONE" 18, .raw "FL" 12, .raw "HL" 6]

/-- The image subheader's fields in source order (`parse_image_subheader`). -/
def imageSteps : List FieldStep :=
  [.raw "IM" 2, .raw "IID1" 10, .dateTime "IDATIM", .optT "TGTID" 17,
   .optT "IID2" 80, .raw "ISCLAS" 1, .optT "ISCLSY" 2, .optT "ISCODE" 11,
   .optT "ISCTLH" 2, .optT "ISREL" 20, .optT "ISDCTP" 2, .dateOptT "ISDCDT",
   .optT "ISDCXM" 4, .optT "ISDG" 1, .dateOptT "ISDGDT", .optT "ISCLTX" 43,
   .optT "ISCATP" 1, .optT "ISCAUT" 40, .optT "ISCRSN" 1, .dateOptT "ISSRDT",
   .optT "ISCTLN" 15]

/-- The graphic subheader's fields (`parse_graphic_subheader`). -/
def graphicSteps : List FieldStep := [.raw "SY" 2, .raw "SID" 10]

/-- The text subheader's fields (`parse_text_subheader`). -/
def textSteps : List FieldStep := [.raw "TE" 2, .raw "TEXTID" 7]

/-- The data-extension subheader's fields (`parse_data_ext_seg_subheader`). -/
def desSteps : List FieldStep := [.raw "DE" 2, .raw "DESID" 25]

/-- The `(subheader length, segment length)` pair loop of one segment
table group: `for n in 1..=count { insert(pre1|n, slice w1); insert(pre2|n,
slice w2); cursor += w1+w2 }`.  `k` is the remaining iteration count,
`idx` the current 1-based index. -/
def pairsLoop (buf : List Nat) (pre1 pre2 : String) (w1 w2 : Nat) :
    Nat → Nat → FieldMap → Nat → Except RErr (FieldMap × Nat)
  | 0, _, m, c => .ok (m, c)
  | k + 1, idx, m, c => do
      let b1 ← sliceE buf c w1
      let b2 ← sliceE buf (c + w1) w2
      pairsLoop buf pre1 pre2 w1 w2 k (idx + 1)
        (insertF (insertF m (pre1 ++ pad3 idx) (bytesToString b1))
                 (pre2 ++ pad3 idx) (bytesToString b2))
        (c + (w1 + w2))

/-- One segment-table group: a 3-byte count inserted raw under `ckey`,
its manual decimal value, then the pair loop (source lines 361-374 and
the four analogous blocks). -/
def parseGroup (buf : List Nat) (ckey pre1 pre2 : String) (w1 w2 : Nat)
    (m : FieldMap) (c : Nat) : Except RErr (FieldMap × Nat) := do
  let bs ← sliceE buf c 3
  pairsLoop buf pre1 pre2 w1 w2 (manualDec bs).toNat 1
    (insertF m ckey (bytesToString bs)) (c + 3)

/-- The file header's segment tables: image, graphic, the reserved
`NUMX` field, text, data-extension, reserved-extension, in source
order with the source's widths. -/
def parseSegTables (buf : List Nat) (m : FieldMap) (c : Nat) :
    Except RErr (FieldMap × Nat) := do
  let p1 ← parseGroup buf "NUMI" "LISH" "LI" 6 10 m c
  let p2 ← parseGroup buf "NUMS" "LSSH" "LS" 4 6 p1.1 p1.2
  let bx ← sliceE buf p2.2 3
  let p3 ← parseGroup buf "NUMT" "LTSH" "LT" 4 5 (insertF p2.1 "NUMX" (bytesToString bx)) (p2.2 + 3)
  let p4 ← parseGroup buf "NUMDES" "LDSH" "LD" 4 9 p3.1 p3.2
  parseGroup buf "NUMRES" "LRESH" "LRE" 4 7 p4.1 p4.2

/-- The TLV loop body shared by the user-defined and extended header
areas: while `i < bound`, read a 6-byte tag, a 5-byte manual-decimal
length, then `length` value bytes (trimmed), inserting the entry under
the raw tag into the same map as the fixed fields.  A negative decoded
length is a panic (`as usize` wrap makes the value slice leave any real
buffer).  `fuel` only makes the recursion structural; each iteration
advances `i` by at least 11, so the call sites' `bound + 1` can never
run out. -/
def tlvLoop (buf : List Nat) (cur bound : Nat) :
    Nat → FieldMap → Nat → Except RErr (FieldMap × Nat)
  | 0, _, _ => .error .fuelOut
  | fuel + 1, m, i =>
      if i < bound then do
        let tagB ← sliceE buf (cur + i) 6
        let lenB ← sliceE buf (cur + i + 6) 5
        let len := manualDec lenB
        if len < 0 then .error .idxOOB
        else do
          let vB ← sliceE buf (cur + i + 11) len.toNat
          tlvLoop buf cur bound fuel
            (insertF m (bytesToString tagB) (trimAscii (bytesToString vB)))
            (i + 11 + len.toNat)
      else .ok (m, i)

/-- A TLV block read starting at `cur` with declared byte bound
`bound`; returns the updated map and the bytes actually consumed. -/
def readTLV (buf : List Nat) (cur bound : Nat) (m : FieldMap) :
    Except RErr (FieldMap × Nat) :=
  tlvLoop buf cur bound (bound + 1) m 0

/-- The user-defined header area (source lines 444-471): the 5-byte
`UDHDL` field raw, its manual decimal value `L`; when `L > 0`, the
3-byte `UDHOFL` field raw, then the TLV loop with bound `L`, the cursor
advancing by the loop's final `i`. -/
def parseUDArea (buf : List Nat) (m : FieldMap) (c : Nat) :
    Except RErr (FieldMap × Nat) := do
  let bs ← sliceE buf c 5
  let m := insertF m "UDHDL" (bytesToString bs)
  if manualDec bs > 0 then do
    let s3 ← sliceE buf (c + 5) 3
    let m := insertF m "UDHOFL" (bytesToString s3)
    let p ← readTLV buf (c + 8) (manualDec bs).toNat m
    .ok (p.1, c + 8 + p.2)
  else .ok (m, c + 5)

/-- The extended header area (source lines 473-499): the 5-byte `XHDL`
field raw, its manual decimal value `L`; when `L > 0`, the 3-byte
`XHOFL` field trimmed, then the TLV loop with bound `L - 3` (a `usize`
subtraction that aborts when `L < 3`). -/
def parseXArea (buf : List Nat) (m : FieldMap) (c : Nat) :
    Except RErr FieldMap := do
  let bs ← sliceE buf c 5
  let m := insertF m "XHDL" (bytesToString bs)
  if manualDec bs > 0 then do
    let s3 ← sliceE buf (c + 5) 3
    let m := insertF m "XHOFL" (trimAscii (bytesToString s3))
    if manualDec bs < 3 then .error .ovfl
    else do
      let p ← readTLV buf (c + 8) ((manualDec bs).toNat - 3) m
      .ok p.1
  else .ok m

/-- `NITF::parse_header`: fixed fields, segment tables, user-defined
area, extended area, in source order. -/
def parse_header (buf : List Nat) : Except RErr FieldMap := do
  let pf ← runSteps buf fileFixedSteps [] 0
  let pt ← parseSegTables buf pf.1 pf.2
  let pu ← parseUDArea buf pt.1 pt.2
  parseXArea buf pu.1 pu.2

/-- `NITF::parse_image_subheader`. -/
def parse_image_subheader (buf : List Nat) (off : Nat) : Except RErr FieldMap :=
  (runSteps buf imageSteps [] off).map (fun p => p.1)

/-- `NITF::parse_graphic_subheader`. -/
def parse_graphic_subheader (buf : List Nat) (off : Nat) : Except RErr FieldMap :=
  (runSteps buf graphicSteps [] off).map (fun p => p.1)

/-- `NITF::parse_text_subheader`. -/
def parse_text_subheader (buf : List Nat) (off : Nat) : Except RErr FieldMap :=
  (runSteps buf textSteps [] off).map (fun p => p.1)

/-- `NITF::parse_data_ext_seg_subheader`. -/
def parse_data_ext_seg_subheader (buf : List Nat) (off : Nat) : Except RErr FieldMap :=
  (runSteps buf desSteps [] off).map (fun p => p.1)

/-- The offset loop of `NITF::new` for one segment kind: for `i` in
`idx..idx+k-1`, record the running offset, then advance it by the
parsed `pre1|i` and `pre2|i` fields (both via `get(..).unwrap()
.parse::<usize>().unwrap()`).  Returns the recorded offsets and the
final running offset. -/
def segOffsets (h : FieldMap) (pre1 pre2 : String) :
    Nat → Nat → Nat → Except RErr (List Nat × Nat)
  | _, 0, offset => .ok ([], offset)
  | idx, k + 1, offset => do
      let a ← unwrapO (getNum h (pre1 ++ pad3 idx))
      let b ← unwrapO (getNum h (pre2 ++ pad3 idx))
      let p ← segOffsets h pre1 pre2 (idx + 1) k (offset + a + b)
      .ok (offset :: p.1, p.2)

/-- Fail-fast map over a list, modelling the fan-out of subheader
decodes (each Rust task `unwrap`s its decode, so any failure aborts the
whole call). -/
def mapME : List α → (α → Except RErr β) → Except RErr (List β)
  | [], _ => .ok []
  | a :: as, f => do
      let b ← f a
      let bs ← mapME as f
      .ok (b :: bs)

/-- The decoded record held by `NITFmetadata`. -/
structure NITFmetadata where
  file_header : FieldMap
  image_subheaders : List FieldMap
  graphic_subheaders : List FieldMap
  text_subheaders : List FieldMap
  data_ext_subheaders : List FieldMap
deriving DecidableEq, Repr

/-- `NITF::new` on an in-memory buffer, parameterised by the order in
which each kind's parallel subheader decodes arrive on the result
channel: the source sends the decodes of `image_offsets` (etc.) from a
rayon parallel iterator into an mpsc channel and collects them in
arrival order, which is any scheduler-chosen reordering of index
order.  `piI`/`piS`/`piT`/`piD` are those reorderings; an execution of
the source corresponds to instances where each is a permutation. -/
def nitf_new_sched (piI piS piT piD : List FieldMap → List FieldMap)
    (nitf : List Nat) : Except RErr NITFmetadata := do
  let file_header ← parse_header nitf
  let hl ← unwrapO (getNum file_header "HL")
  let numI ← unwrapO (getNum file_header "NUMI")
  let pI ← segOffsets file_header "LISH" "LI" 1 numI hl
  let imgs ← mapME pI.1 (parse_image_subheader nitf)
  let numS ← unwrapO (getNum file_header "NUMS")
  let pS ← segOffsets file_header "LSSH" "LS" 1 numS pI.2
  let grphs ← mapME pS.1 (parse_graphic_subheader nitf)
  let numT ← unwrapO (getNum file_header "NUMT")
  let pT ← segOffsets file_header "LTSH" "LT" 1 numT pS.2
  let txts ← mapME pT.1 (parse_text_subheader nitf)
  let numD ← unwrapO (getNum file_header "NUMDES")
  let pD ← segOffsets file_header "LDSH" "LD" 1 numD pT.2
  let dess ← mapME pD.1 (parse_data_ext_seg_subheader nitf)
  .ok ⟨file_header, piI imgs, piS grphs, piT txts, piD dess⟩

/-- `NITF::new` under the in-order schedule. -/
def nitf_new (nitf : List Nat) : Except RErr NITFmetadata :=
  nitf_new_sched (fun l => l) (fun l => l) (fun l => l) (fun l => l) nitf

/-! ## Concrete buffers used by witnesses and counterexamples -/

/-- The bytes of an ASCII string. -/
def str2b (s : String) : List Nat := s.data.map Char.toNat

/-- `n` space bytes (a blank fixed-width slot). -/
def spB (n : Nat) : List Nat := List.replicate n 32

/-- The 360 fixed-field bytes of a synthetic file header, parameterised
by the 6-byte `HL` slot.  `FTITLE` is populated, `FSCOP` is blank, all
optional security slots are blank. -/
def fixedBytes (hl : String) : List Nat :=
  str2b "NITF" ++ str2b "02.10" ++ str2b "03" ++ str2b "BF01" ++
  str2b "STATION01 " ++ str2b "20240101120000" ++ (str2b "HELLO" ++ spB 75) ++
  str2b "U" ++ spB 2 ++ spB 11 ++ spB 2 ++ spB 20 ++ spB 2 ++ spB 8 ++ spB 4 ++
  spB 1 ++ spB 8 ++ spB 43 ++ spB 1 ++ spB 40 ++ spB 1 ++ spB 8 ++ spB 15 ++
  spB 5 ++ str2b "00005" ++ str2b "0" ++ [0, 0, 0] ++ spB 24 ++ spB 18 ++
  str2b "000000000388" ++ str2b hl

/-- The six all-zero 3-byte segment counts (`NUMI` through `NUMRES`). -/
def zeroCounts : List Nat := str2b "000000000000000000"

/-- A 290-byte image subheader region with the given 10-byte `IID1` slot. -/
def imageBytes (iid : String) : List Nat :=
  str2b "IM" ++ str2b iid ++ str2b "20240101120000" ++ spB 17 ++ spB 80 ++
  str2b "U" ++ spB 166

/-- A minimal 388-byte file: zero segments everywhere, no TLV areas. -/
def bufMin : List Nat :=
  fixedBytes "000388" ++ zeroCounts ++ str2b "00000" ++ str2b "00000"

/-- The spec's concrete scenario: `NUMI="001"`, `LISH001="000439"`,
`LI001="0000000100"`, `HL="000439"`; the 404-byte header is padded to
offset 439, where one image subheader sits. -/
def buf439 : List Nat :=
  fixedBytes "000439" ++ str2b "001" ++ str2b "000439" ++ str2b "0000000100" ++
  str2b "000000000000000" ++ str2b "00000" ++ str2b "00000" ++ spB 35 ++
  imageBytes "IMAGEA    "

/-- Two image segments whose subheader and data lengths are all zero:
both segment offsets are 420. -/
def bufC7 : List Nat :=
  fixedBytes "000420" ++ str2b "002" ++ str2b "000000" ++ str2b "0000000000" ++
  str2b "000000" ++ str2b "0000000000" ++ str2b "000000000000000" ++
  str2b "00000" ++ str2b "00000" ++ imageBytes "IMAGEA    "

/-- Two image segments with distinct subheaders (`IID1` differs) at
offsets 420 and 710. -/
def bufSched : List Nat :=
  fixedBytes "000420" ++ str2b "002" ++ str2b "000290" ++ str2b "0000000000" ++
  str2b "000290" ++ str2b "0000000000" ++ str2b "000000000000000" ++
  str2b "00000" ++ str2b "00000" ++ imageBytes "IMAGEA    " ++
  imageBytes "IMAGEB    "

/-- A user-defined header area declaring `UDHDL="00011"` whose single
TLV entry (`TAGAAA`, length 5) occupies 16 bytes, crossing the declared
11-byte boundary. -/
def bufTLV : List Nat :=
  fixedBytes "000407" ++ zeroCounts ++ str2b "00011" ++ str2b "001" ++
  str2b "TAGAAA" ++ str2b "00005" ++ str2b "ABCDE" ++ str2b "00000"

/-- A user-defined header area whose single TLV entry's tag is the
string `UDHOFL`, colliding with the fixed `UDHOFL` field (whose slot
holds `001`). -/
def bufCollide : List Nat :=
  fixedBytes "000405" ++ zeroCounts ++ str2b "00014" ++ str2b "001" ++
  str2b "UDHOFL" ++ str2b "00003" ++ str2b "XYZ" ++ str2b "00000"

/-- Project a successful decode, with an inert default on error. -/
def okMd (e : Except RErr NITFmetadata) : NITFmetadata :=
  match e with
  | .ok m => m
  | .error _ => ⟨[], [], [], [], []⟩

/-- Project a successful header parse, with an inert default on error. -/
def okMap (e : Except RErr FieldMap) : FieldMap :=
  match e with
  | .ok m => m
  | .error _ => []

/-- Project a successful map-and-cursor result. -/
def okPair (e : Except RErr (FieldMap × Nat)) : FieldMap × Nat :=
  match e with
  | .ok p => p
  | .error _ => ([], 0)

/-- Project a successful offsets-and-final-offset result. -/
def okOffs (e : Except RErr (List Nat × Nat)) : List Nat × Nat :=
  match e with
  | .ok p => p
  | .error _ => ([], 0)

deriving instance DecidableEq for Except

set_option maxRecDepth 100000

/-! ## Basic lemmas about the panic monad and field maps -/

/-- A failed computation short-circuits the chain. -/
@[simp] theorem ebind_error (e : RErr) (f : α → Except RErr β) :
    (Except.error e >>= f) = Except.error e := rfl

/-- A successful computation feeds its value to the continuation. -/
@[simp] theorem ebind_okL (a : α) (f : α → Except RErr β) :
    (Except.ok a >>= f) = f a := rfl

/-- Inversion of a successful bind. -/
theorem ebind_eq_ok {x : Except RErr α} {f : α → Except RErr β} {b : β} :
    x >>= f = .ok b ↔ ∃ a, x = .ok a ∧ f a = .ok b := by
  cases x <;> simp [Except.bind]

/-- Inversion of a successful map. -/
theorem emap_eq_ok {x : Except RErr α} {g : α → β} {b : β} :
    Except.map g x = .ok b ↔ ∃ a, x = .ok a ∧ g a = b := by
  cases x <;> simp [Except.map, eq_comm]

/-- Looking up the key just inserted yields the new value. -/
theorem getF_insertF_self (m : FieldMap) (k : String) (v : String) :
    getF (insertF m k v) k = some v := by
  induction m with
  | nil => simp [insertF, getF]
  | cons p rest ih =>
      by_cases h : p.1 = k
      · simp [insertF, h, getF]
      · simp [insertF, h, getF, ih]

/-- Inserting under a different key leaves a lookup unchanged. -/
theorem getF_insertF_ne (m : FieldMap) {k k' : String} (v : String) (h : k ≠ k') :
    getF (insertF m k v) k' = getF m k' := by
  have h' : ¬(k' = k) := fun hh => h hh.symm
  induction m with
  | nil => simp [insertF, getF, h]
  | cons p rest ih =>
      by_cases hp : p.1 = k
      · simp [insertF, hp, getF, h]
      · by_cases hp' : p.1 = k'
        · simp [insertF, hp, getF, hp', h']
        · simp [insertF, hp, getF, hp', ih]

/-- `mapME` preserves length on success. -/
theorem mapME_ok_length {f : α → Except RErr β} :
    ∀ {xs : List α} {ys : List β}, mapME xs f = .ok ys → ys.length = xs.length := by
  intro xs
  induction xs with
  | nil => intro ys h; simp [mapME] at h; simp [← h]
  | cons a as ih =>
      intro ys h
      simp only [mapME, ebind_eq_ok] at h
      obtain ⟨b, _, bs, hbs, h⟩ := h
      cases h
      simp [ih hbs]

/-- Inversion of a successful unwrap. -/
theorem unwrapO_eq_ok {o : Option α} {a : α} : unwrapO o = .ok a ↔ o = some a := by
  cases o <;> simp [unwrapO]

/-- On success, the offset loop records one offset per segment. -/
theorem segOffsets_ok_length {h : FieldMap} {pre1 pre2 : String} :
    ∀ {k idx off offs fin}, segOffsets h pre1 pre2 idx k off = .ok (offs, fin) →
      offs.length = k := by
  intro k
  induction k with
  | zero =>
      intro idx off offs fin hh
      simp only [segOffsets, Except.ok.injEq, Prod.mk.injEq] at hh
      simp [← hh.1]
  | succ k ih =>
      intro idx off offs fin hh
      simp only [segOffsets, ebind_eq_ok] at hh
      obtain ⟨a, _, b, _, p, hp, hh⟩ := hh
      simp only [Except.ok.injEq, Prod.mk.injEq] at hh
      have := ih hp
      simp [← hh.1, this]

/-- Executable statement that `offs` is the cumulative offset chain
described by the spec: the first offset is `cur`, and each next offset
adds the parsed subheader-length and segment-length fields of the
current index. -/
def isCumChain (h : FieldMap) (pre1 pre2 : String) : Nat → Nat → List Nat → Bool
  | _, _, [] => true
  | idx, cur, o :: rest =>
      o == cur &&
      match getNum h (pre1 ++ pad3 idx), getNum h (pre2 ++ pad3 idx) with
      | some a, some b => isCumChain h pre1 pre2 (idx + 1) (cur + a + b) rest
      | _, _ => false

/-- The offset loop produces exactly the cumulative chain. -/
theorem segOffsets_isCumChain {h : FieldMap} {pre1 pre2 : String} :
    ∀ {k idx off offs fin}, segOffsets h pre1 pre2 idx k off = .ok (offs, fin) →
      isCumChain h pre1 pre2 idx off offs = true := by
  intro k
  induction k with
  | zero =>
      intro idx off offs fin hh
      simp only [segOffsets, Except.ok.injEq, Prod.mk.injEq] at hh
      simp [← hh.1, isCumChain]
  | succ k ih =>
      intro idx off offs fin hh
      simp only [segOffsets, ebind_eq_ok, unwrapO_eq_ok] at hh
      obtain ⟨a, ha, b, hb, p, hp, hh⟩ := hh
      simp only [Except.ok.injEq, Prod.mk.injEq] at hh
      rw [← hh.1]
      simp [isCumChain, ha, hb, ih hp]

/-- The offsets the loop records are weakly increasing, bounded below
by the start and above by the final running offset. -/
theorem segOffsets_bounds {h : FieldMap} {pre1 pre2 : String} :
    ∀ {k idx off offs fin}, segOffsets h pre1 pre2 idx k off = .ok (offs, fin) →
      (∀ o ∈ offs, off ≤ o ∧ o ≤ fin) ∧ off ≤ fin ∧ List.Chain' (· ≤ ·) offs := by
  intro k
  induction k with
  | zero =>
      intro idx off offs fin hh
      simp only [segOffsets, Except.ok.injEq, Prod.mk.injEq] at hh
      refine ⟨?_, ?_, ?_⟩
      · intro o ho; rw [← hh.1] at ho; simp at ho
      · exact hh.2.le
      · rw [← hh.1]; simp
  | succ k ih =>
      intro idx off offs fin hh
      simp only [segOffsets, ebind_eq_ok] at hh
      obtain ⟨a, _, b, _, p, hp, hh⟩ := hh
      simp only [Except.ok.injEq, Prod.mk.injEq] at hh
      obtain ⟨hmem, hle, hch⟩ := ih hp
      have hfin : fin = p.2 := hh.2.symm
      refine ⟨?_, ?_, ?_⟩
      · intro o ho
        rw [← hh.1] at ho
        rcases List.mem_cons.mp ho with rfl | ho'
        · exact ⟨le_refl o, by rw [hfin]; omega⟩
        · have := hmem o ho'
          constructor
          · omega
          · rw [hfin]; exact this.2
      · rw [hfin]; omega
      · rw [← hh.1]
        rw [List.chain'_cons']
        refine ⟨?_, hch⟩
        intro x hx
        have hxs : x ∈ p.1 := by
          cases hq : p.1 with
          | nil => rw [hq] at hx; simp at hx
          | cons y ys =>
              rw [hq] at hx
              simp at hx
              simp [hx]
        have := hmem x hxs
        omega

/-- Successful runs of `NITF::new` decompose into the header parse, the
four offset loops chained through the running offset, and the four
fail-fast subheader maps, each reordered by its schedule parameter. -/
theorem nitf_new_decomp {piI piS piT piD : List FieldMap → List FieldMap}
    {buf : List Nat} {md : NITFmetadata}
    (h : nitf_new_sched piI piS piT piD buf = .ok md) :
    ∃ hdr hl nI nS nT nD oI f1 oS f2 oT f3 oD f4 lI lS lT lD,
      parse_header buf = .ok hdr ∧
      md.file_header = hdr ∧
      getNum hdr "HL" = some hl ∧
      getNum hdr "NUMI" = some nI ∧
      segOffsets hdr "LISH" "LI" 1 nI hl = .ok (oI, f1) ∧
      mapME oI (parse_image_subheader buf) = .ok lI ∧
      md.image_subheaders = piI lI ∧
      getNum hdr "NUMS" = some nS ∧
      segOffsets hdr "LSSH" "LS" 1 nS f1 = .ok (oS, f2) ∧
      mapME oS (parse_graphic_subheader buf) = .ok lS ∧
      md.graphic_subheaders = piS lS ∧
      getNum hdr "NUMT" = some nT ∧
      segOffsets hdr "LTSH" "LT" 1 nT f2 = .ok (oT, f3) ∧
      mapME oT (parse_text_subheader buf) = .ok lT ∧
      md.text_subheaders = piT lT ∧
      getNum hdr "NUMDES" = some nD ∧
      segOffsets hdr "LDSH" "LD" 1 nD f3 = .ok (oD, f4) ∧
      mapME oD (parse_data_ext_seg_subheader buf) = .ok lD ∧
      md.data_ext_subheaders = piD lD := by
  simp only [nitf_new_sched, ebind_eq_ok, unwrapO_eq_ok, Except.ok.injEq] at h
  obtain ⟨hdr, hhdr, hl, hhl, nI, hnI, pI, hpI, lI, hlI, nS, hnS, pS, hpS, lS, hlS,
    nT, hnT, pT, hpT, lT, hlT, nD, hnD, pD, hpD, lD, hlD, hmd⟩ := h
  subst hmd
  exact ⟨hdr, hl, nI, nS, nT, nD, pI.1, pI.2, pS.1, pS.2, pT.1, pT.2, pD.1, pD.2,
    lI, lS, lT, lD, hhdr, rfl, hhl, hnI, hpI, hlI, rfl, hnS, hpS, hlS, rfl,
    hnT, hpT, hlT, rfl, hnD, hpD, hlD, rfl⟩

/-! ## Claim C1 — counts equal output lengths -/

/-- C1: for every successful decode under any channel arrival order
(any permutation per kind), the length of each output subheader
sequence equals the parsed integer value of the corresponding count
field of the decoded file header. -/
theorem c1_counts_match_lengths
    (piI piS piT piD : List FieldMap → List FieldMap)
    (hI : ∀ l, (piI l).Perm l) (hS : ∀ l, (piS l).Perm l)
    (hT : ∀ l, (piT l).Perm l) (hD : ∀ l, (piD l).Perm l)
    (buf : List Nat) (md : NITFmetadata)
    (h : nitf_new_sched piI piS piT piD buf = .ok md) :
    getNum md.file_header "NUMI" = some md.image_subheaders.length ∧
    getNum md.file_header "NUMS" = some md.graphic_subheaders.length ∧
    getNum md.file_header "NUMT" = some md.text_subheaders.length ∧
    getNum md.file_header "NUMDES" = some md.data_ext_subheaders.length := by
  obtain ⟨hdr, hl, nI, nS, nT, nD, oI, f1, oS, f2, oT, f3, oD, f4, lI, lS, lT, lD,
    _, hfh, _, hnI, hpI, hlI, hmdI, hnS, hpS, hlS, hmdS,
    hnT, hpT, hlT, hmdT, hnD, hpD, hlD, hmdD⟩ := nitf_new_decomp h
  subst hfh
  refine ⟨?_, ?_, ?_, ?_⟩
  · rw [hmdI, (hI lI).length_eq, mapME_ok_length hlI, segOffsets_ok_length hpI, hnI]
  · rw [hmdS, (hS lS).length_eq, mapME_ok_length hlS, segOffsets_ok_length hpS, hnS]
  · rw [hmdT, (hT lT).length_eq, mapME_ok_length hlT, segOffsets_ok_length hpT, hnT]
  · rw [hmdD, (hD lD).length_eq, mapME_ok_length hlD, segOffsets_ok_length hpD, hnD]

/-- C1, witness: the theorem applied to `bufMin` under the in-order
schedule; all four counts are zero and all four sequences are empty. -/
theorem c1_counts_match_lengths_witness :
    getNum (okMd (nitf_new bufMin)).file_header "NUMI"
      = some (okMd (nitf_new bufMin)).image_subheaders.length ∧
    getNum (okMd (nitf_new bufMin)).file_header "NUMS"
      = some (okMd (nitf_new bufMin)).graphic_subheaders.length ∧
    getNum (okMd (nitf_new bufMin)).file_header "NUMT"
      = some (okMd (nitf_new bufMin)).text_subheaders.length ∧
    getNum (okMd (nitf_new bufMin)).file_header "NUMDES"
      = some (okMd (nitf_new bufMin)).data_ext_subheaders.length :=
  c1_counts_match_lengths (fun l => l) (fun l => l) (fun l => l) (fun l => l)
    (fun l => List.Perm.refl l) (fun l => List.Perm.refl l)
    (fun l => List.Perm.refl l) (fun l => List.Perm.refl l)
    bufMin (okMd (nitf_new bufMin)) (by decide)

/-- Membership from `getLast?`. -/
theorem mem_of_getLast?_eq {l : List Nat} {x : Nat} (h : x ∈ l.getLast?) : x ∈ l := by
  obtain ⟨hne, rfl⟩ := List.mem_getLast?_eq_getLast h
  exact List.getLast_mem hne

/-- Membership from `head?`. -/
theorem mem_of_head?_eq {l : List Nat} {x : Nat} (h : x ∈ l.head?) : x ∈ l := by
  cases l <;> simp_all

/-- Two weakly increasing offset lists separated by a bound concatenate
to a weakly increasing list. -/
theorem chain_le_append {l₁ l₂ : List Nat} {mid : Nat}
    (h₁ : List.Chain' (· ≤ ·) l₁) (h₂ : List.Chain' (· ≤ ·) l₂)
    (hb₁ : ∀ x ∈ l₁, x ≤ mid) (hb₂ : ∀ x ∈ l₂, mid ≤ x) :
    List.Chain' (· ≤ ·) (l₁ ++ l₂) :=
  List.Chain'.append h₁ h₂ (fun x hx y hy =>
    le_trans (hb₁ x (mem_of_getLast?_eq hx)) (hb₂ y (mem_of_head?_eq hy)))

/-- On success the offset loop's offsets start at the running offset
(or the loop was empty and the running offset is unchanged). -/
theorem segOffsets_head {h : FieldMap} {pre1 pre2 : String}
    {k idx off : Nat} {offs : List Nat} {fin : Nat}
    (hh : segOffsets h pre1 pre2 idx k off = .ok (offs, fin)) :
    offs.head? = some off ∨ (offs = [] ∧ fin = off) := by
  cases k with
  | zero =>
      simp only [segOffsets, Except.ok.injEq, Prod.mk.injEq] at hh
      exact Or.inr ⟨hh.1.symm, hh.2.symm⟩
  | succ k =>
      simp only [segOffsets, ebind_eq_ok] at hh
      obtain ⟨a, _, b, _, p, _, hh⟩ := hh
      simp only [Except.ok.injEq, Prod.mk.injEq] at hh
      rw [← hh.1]
      exact Or.inl rfl

/-! ## Claim C2 — offsets are the cumulative chain, groups in fixed order -/

/-- The offset-chain decomposition of a successful decode of `buf` into
`md`: the image offsets start at the parsed `HL` and follow the
cumulative chain, and graphic, text and data-extension offsets each
continue from the running offset the previous group left. -/
def CumChainDecomp (piI piS piT piD : List FieldMap → List FieldMap)
    (buf : List Nat) (md : NITFmetadata) : Prop :=
  ∃ hdr hl nI nS nT nD oI f1 oS f2 oT f3 oD f4 lI lS lT lD,
    parse_header buf = .ok hdr ∧
    md.file_header = hdr ∧
    getNum hdr "HL" = some hl ∧
    getNum hdr "NUMI" = some nI ∧
    segOffsets hdr "LISH" "LI" 1 nI hl = .ok (oI, f1) ∧
    isCumChain hdr "LISH" "LI" 1 hl oI = true ∧
    mapME oI (parse_image_subheader buf) = .ok lI ∧
    md.image_subheaders = piI lI ∧
    getNum hdr "NUMS" = some nS ∧
    segOffsets hdr "LSSH" "LS" 1 nS f1 = .ok (oS, f2) ∧
    isCumChain hdr "LSSH" "LS" 1 f1 oS = true ∧
    mapME oS (parse_graphic_subheader buf) = .ok lS ∧
    md.graphic_subheaders = piS lS ∧
    getNum hdr "NUMT" = some nT ∧
    segOffsets hdr "LTSH" "LT" 1 nT f2 = .ok (oT, f3) ∧
    isCumChain hdr "LTSH" "LT" 1 f2 oT = true ∧
    mapME oT (parse_text_subheader buf) = .ok lT ∧
    md.text_subheaders = piT lT ∧
    getNum hdr "NUMDES" = some nD ∧
    segOffsets hdr "LDSH" "LD" 1 nD f3 = .ok (oD, f4) ∧
    isCumChain hdr "LDSH" "LD" 1 f3 oD = true ∧
    mapME oD (parse_data_ext_seg_subheader buf) = .ok lD ∧
    md.data_ext_subheaders = piD lD

/-- C2: every successful decode, under any channel arrival order,
satisfies the cumulative-chain decomposition: the first image offset is
the parsed `HL`, each next offset adds the previous segment's subheader
and data lengths, and the image, graphic, text and data-extension
groups are chained in that fixed order through the running offset. -/
theorem c2_offsets_cumulative_chain
    (piI piS piT piD : List FieldMap → List FieldMap)
    (buf : List Nat) (md : NITFmetadata)
    (h : nitf_new_sched piI piS piT piD buf = .ok md) :
    CumChainDecomp piI piS piT piD buf md := by
  obtain ⟨hdr, hl, nI, nS, nT, nD, oI, f1, oS, f2, oT, f3, oD, f4, lI, lS, lT, lD,
    hph, hfh, hhl, hnI, hpI, hlI, hmdI, hnS, hpS, hlS, hmdS,
    hnT, hpT, hlT, hmdT, hnD, hpD, hlD, hmdD⟩ := nitf_new_decomp h
  exact ⟨hdr, hl, nI, nS, nT, nD, oI, f1, oS, f2, oT, f3, oD, f4, lI, lS, lT, lD,
    hph, hfh, hhl, hnI, hpI, segOffsets_isCumChain hpI, hlI, hmdI,
    hnS, hpS, segOffsets_isCumChain hpS, hlS, hmdS,
    hnT, hpT, segOffsets_isCumChain hpT, hlT, hmdT,
    hnD, hpD, segOffsets_isCumChain hpD, hlD, hmdD⟩

/-- C2, witness: the spec's concrete scenario `buf439` (`NUMI="001"`,
`LISH001="000439"`, `LI001="0000000100"`, `HL="000439"`): the
decomposition holds, the single image offset list is `[439]` with the
running offset ending at 978, and exactly one image subheader is
decoded. -/
theorem c2_offsets_cumulative_chain_witness :
    CumChainDecomp (fun l => l) (fun l => l) (fun l => l) (fun l => l)
      buf439 (okMd (nitf_new buf439)) ∧
    getNum (okMap (parse_header buf439)) "HL" = some 439 ∧
    okOffs (segOffsets (okMap (parse_header buf439)) "LISH" "LI" 1 1 439)
      = ([439], 978) ∧
    (okMd (nitf_new buf439)).image_subheaders.length = 1 :=
  ⟨c2_offsets_cumulative_chain (fun l => l) (fun l => l) (fun l => l) (fun l => l)
      buf439 (okMd (nitf_new buf439)) (by decide),
   by decide, by decide, by decide⟩

/-! ## Claim C7 — monotonicity of the offset chain -/

/-- C7, counterexample: `bufC7` declares two image segments whose
subheader and data lengths are all zero; the decode succeeds, `HL`
parses to 420, and the image offsets are `[420, 420]` — offset(2) is
not strictly greater than offset(1). -/
theorem c7_counterexample :
    nitf_new bufC7 = .ok (okMd (nitf_new bufC7)) ∧
    getNum (okMap (parse_header bufC7)) "HL" = some 420 ∧
    okOffs (segOffsets (okMap (parse_header bufC7)) "LISH" "LI" 1 2 420)
      = ([420, 420], 420) :=
  ⟨by decide, by decide, by decide⟩

/-- The weak-monotonicity decomposition of a successful decode: the
whole chained offset list (image, then graphic, then text, then
data-extension) is weakly increasing, and its first entry — when any
segment exists — is the parsed `HL`. -/
def MonotoneOffsets (buf : List Nat) (md : NITFmetadata) : Prop :=
  ∃ hdr hl nI nS nT nD oI f1 oS f2 oT f3 oD f4,
    parse_header buf = .ok hdr ∧
    md.file_header = hdr ∧
    getNum hdr "HL" = some hl ∧
    getNum hdr "NUMI" = some nI ∧
    segOffsets hdr "LISH" "LI" 1 nI hl = .ok (oI, f1) ∧
    getNum hdr "NUMS" = some nS ∧
    segOffsets hdr "LSSH" "LS" 1 nS f1 = .ok (oS, f2) ∧
    getNum hdr "NUMT" = some nT ∧
    segOffsets hdr "LTSH" "LT" 1 nT f2 = .ok (oT, f3) ∧
    getNum hdr "NUMDES" = some nD ∧
    segOffsets hdr "LDSH" "LD" 1 nD f3 = .ok (oD, f4) ∧
    List.Chain' (· ≤ ·) (oI ++ oS ++ oT ++ oD) ∧
    (oI ++ oS ++ oT ++ oD = [] ∨ (oI ++ oS ++ oT ++ oD).head? = some hl)

/-- C7, amended: the derived segment start offsets across the whole
chain are weakly increasing — `offset(k+1) = offset(k) + subheader
length + data length ≥ offset(k)`, with equality exactly when both
lengths are zero, as `bufC7` exhibits — and the first offset equals the
parsed `HL`. -/
theorem c7_offsets_weakly_monotone
    (piI piS piT piD : List FieldMap → List FieldMap)
    (buf : List Nat) (md : NITFmetadata)
    (h : nitf_new_sched piI piS piT piD buf = .ok md) :
    MonotoneOffsets buf md := by
  obtain ⟨hdr, hl, nI, nS, nT, nD, oI, f1, oS, f2, oT, f3, oD, f4, lI, lS, lT, lD,
    hph, hfh, hhl, hnI, hpI, _, hmdI, hnS, hpS, _, hmdS,
    hnT, hpT, _, hmdT, hnD, hpD, _, hmdD⟩ := nitf_new_decomp h
  obtain ⟨hbI, hleI, hchI⟩ := segOffsets_bounds hpI
  obtain ⟨hbS, hleS, hchS⟩ := segOffsets_bounds hpS
  obtain ⟨hbT, hleT, hchT⟩ := segOffsets_bounds hpT
  obtain ⟨hbD, hleD, hchD⟩ := segOffsets_bounds hpD
  refine ⟨hdr, hl, nI, nS, nT, nD, oI, f1, oS, f2, oT, f3, oD, f4,
    hph, hfh, hhl, hnI, hpI, hnS, hpS, hnT, hpT, hnD, hpD, ?_, ?_⟩
  · have hIS : List.Chain' (· ≤ ·) (oI ++ oS) :=
      chain_le_append hchI hchS (fun x hx => (hbI x hx).2) (fun x hx => (hbS x hx).1)
    have hIST : List.Chain' (· ≤ ·) (oI ++ oS ++ oT) := by
      refine chain_le_append hIS hchT ?_ (fun x hx => (hbT x hx).1)
      intro x hx
      rcases List.mem_append.mp hx with hx' | hx'
      · exact le_trans (hbI x hx').2 hleS
      · exact (hbS x hx').2
    refine chain_le_append hIST hchD ?_ (fun x hx => (hbD x hx).1)
    intro x hx
    rcases List.mem_append.mp hx with hx' | hx'
    · rcases List.mem_append.mp hx' with hx'' | hx''
      · exact le_trans (hbI x hx'').2 (le_trans hleS hleT)
      · exact le_trans (hbS x hx'').2 hleT
    · exact (hbT x hx').2
  · rcases segOffsets_head hpI with hI | ⟨hIe, hf1⟩
    · right
      cases oI with
      | nil => simp at hI
      | cons a l => simp at hI; simp [hI]
    · subst hIe
      rcases segOffsets_head hpS with hS | ⟨hSe, hf2⟩
      · right
        cases oS with
        | nil => simp at hS
        | cons a l => simp at hS; simp [hS, hf1]
      · subst hSe
        rcases segOffsets_head hpT with hT | ⟨hTe, hf3⟩
        · right
          cases oT with
          | nil => simp at hT
          | cons a l => simp at hT; simp [hT, hf1, hf2]
        · subst hTe
          rcases segOffsets_head hpD with hD | ⟨hDe, _⟩
          · right
            cases oD with
            | nil => simp at hD
            | cons a l => simp at hD; simp [hD, hf1, hf2, hf3]
          · subst hDe
            exact Or.inl rfl

/-- C7, witness: the amended theorem applied to `bufC7` under the
in-order schedule (its offset chain `[420, 420]` is weakly but not
strictly increasing). -/
theorem c7_offsets_weakly_monotone_witness :
    MonotoneOffsets bufC7 (okMd (nitf_new bufC7)) :=
  c7_offsets_weakly_monotone (fun l => l) (fun l => l) (fun l => l) (fun l => l)
    bufC7 (okMd (nitf_new bufC7)) (by decide)

/-! ## Claim C4 — truncated input -/

/-- Unfolding `runSteps` on a cons cell. -/
theorem runSteps_cons (buf : List Nat) (st : FieldStep) (rest : List FieldStep)
    (m : FieldMap) (c : Nat) :
    runSteps buf (st :: rest) m c
      = runStep buf m c st >>= fun p => runSteps buf rest p.1 p.2 := rfl

/-- Inversion of a failed bind. -/
theorem ebind_eq_error {x : Except RErr α} {f : α → Except RErr β} {e : RErr} :
    x >>= f = .error e ↔ x = .error e ∨ ∃ a, x = .ok a ∧ f a = .error e := by
  cases x <;> simp [Except.bind]

/-- A successful slice stays within the buffer. -/
theorem sliceE_ok_bound {buf : List Nat} {a w : Nat} {bs : List Nat}
    (h : sliceE buf a w = .ok bs) : a + w ≤ buf.length := by
  by_cases hw : a + w ≤ buf.length
  · exact hw
  · simp [sliceE, sliceB, hw] at h

/-- A successful field read stays within the buffer. -/
theorem readStr_ok_bound {buf : List Nat} {a w : Nat} {s : String}
    (h : readStr buf a w = .ok s) : a + w ≤ buf.length := by
  by_cases hw : a + w ≤ buf.length
  · exact hw
  · simp [readStr, sliceE, sliceB, hw, Except.map] at h

/-- The only failure a slice produces is the index panic. -/
theorem sliceE_error_kind {buf : List Nat} {a w : Nat} {e : RErr}
    (h : sliceE buf a w = .error e) : e = .idxOOB := by
  by_cases hw : a + w ≤ buf.length
  · simp [sliceE, sliceB, hw] at h
  · simp [sliceE, sliceB, hw] at h
    exact h.symm

/-- The only failure a field read produces is the index panic. -/
theorem readStr_error_kind {buf : List Nat} {a w : Nat} {e : RErr}
    (h : readStr buf a w = .error e) : e = .idxOOB := by
  by_cases hw : a + w ≤ buf.length
  · simp [readStr, sliceE, sliceB, hw, Except.map] at h
  · simp [readStr, sliceE, sliceB, hw, Except.map] at h
    exact h.symm

/-- The number of buffer bytes a field step occupies. -/
def stepWidth : FieldStep → Nat
  | .raw _ w => w
  | .trimF _ w => w
  | .optT _ w => w
  | .optR _ w => w
  | .dateTime _ => 14
  | .dateOptT _ => 8
  | .dateOptR _ => 8
  | .bkgc _ => 3

/-- Total width of a step sequence. -/
def stepsWidth (steps : List FieldStep) : Nat := (steps.map stepWidth).sum

/-- Width of a cons cell. -/
theorem stepsWidth_cons (st : FieldStep) (rest : List FieldStep) :
    stepsWidth (st :: rest) = stepWidth st + stepsWidth rest := by
  simp [stepsWidth]

/-- A field step that succeeds lands its cursor exactly one step width
further, within the buffer. -/
theorem runStep_ok_bound {buf : List Nat} {m : FieldMap} {c : Nat} {st : FieldStep}
    {p : FieldMap × Nat} (h : runStep buf m c st = .ok p) :
    p.2 = c + stepWidth st ∧ p.2 ≤ buf.length := by
  cases st with
  | raw key w =>
      simp only [runStep, ebind_eq_ok] at h
      obtain ⟨s, hs, h⟩ := h
      simp only [Except.ok.injEq] at h
      subst h
      exact ⟨rfl, readStr_ok_bound hs⟩
  | trimF key w =>
      simp only [runStep, ebind_eq_ok] at h
      obtain ⟨s, hs, h⟩ := h
      simp only [Except.ok.injEq] at h
      subst h
      exact ⟨rfl, readStr_ok_bound hs⟩
  | optT key w =>
      simp only [runStep, ebind_eq_ok] at h
      obtain ⟨s, hs, h⟩ := h
      simp only [Except.ok.injEq] at h
      subst h
      exact ⟨rfl, readStr_ok_bound hs⟩
  | optR key w =>
      simp only [runStep, ebind_eq_ok] at h
      obtain ⟨s, hs, h⟩ := h
      simp only [Except.ok.injEq] at h
      subst h
      exact ⟨rfl, readStr_ok_bound hs⟩
  | dateTime key =>
      simp only [runStep, ebind_eq_ok] at h
      obtain ⟨y, _, mo, _, d, _, hh, _, mi, _, se, hse, h⟩ := h
      simp only [Except.ok.injEq] at h
      subst h
      refine ⟨rfl, ?_⟩
      have := readStr_ok_bound hse
      show c + 14 ≤ buf.length
      omega
  | dateOptT key =>
      simp only [runStep, ebind_eq_ok] at h
      obtain ⟨s, hs, y, _, mo, _, d, _, h⟩ := h
      simp only [Except.ok.injEq] at h
      subst h
      exact ⟨rfl, readStr_ok_bound hs⟩
  | dateOptR key =>
      simp only [runStep, ebind_eq_ok] at h
      obtain ⟨s, hs, y, _, mo, _, d, _, h⟩ := h
      simp only [Except.ok.injEq] at h
      subst h
      exact ⟨rfl, readStr_ok_bound hs⟩
  | bkgc key =>
      simp only [runStep, ebind_eq_ok] at h
      obtain ⟨bs, hbs, h⟩ := h
      have hb : c + 3 ≤ buf.length := sliceE_ok_bound hbs
      rcases bs with _ | ⟨b0, _ | ⟨b1, _ | ⟨b2, _ | _⟩⟩⟩
      · simp at h
      · simp at h
      · simp at h
      · simp only [Except.ok.injEq] at h
        subst h
        exact ⟨rfl, hb⟩
      · simp at h

/-- The only failure a field step produces is the index panic: every
error site in a step is an out-of-bounds slice. -/
theorem runStep_error_kind {buf : List Nat} {m : FieldMap} {c : Nat} {st : FieldStep}
    {e : RErr} (h : runStep buf m c st = .error e) : e = .idxOOB := by
  cases st with
  | raw key w =>
      simp only [runStep, ebind_eq_error] at h
      rcases h with h | ⟨s, _, h⟩
      · exact readStr_error_kind h
      · simp at h
  | trimF key w =>
      simp only [runStep, ebind_eq_error] at h
      rcases h with h | ⟨s, _, h⟩
      · exact readStr_error_kind h
      · simp at h
  | optT key w =>
      simp only [runStep, ebind_eq_error] at h
      rcases h with h | ⟨s, _, h⟩
      · exact readStr_error_kind h
      · simp at h
  | optR key w =>
      simp only [runStep, ebind_eq_error] at h
      rcases h with h | ⟨s, _, h⟩
      · exact readStr_error_kind h
      · simp at h
  | dateTime key =>
      simp only [runStep, ebind_eq_error] at h
      rcases h with h | ⟨y, _, h⟩
      · exact readStr_error_kind h
      rcases h with h | ⟨mo, _, h⟩
      · exact readStr_error_kind h
      rcases h with h | ⟨d, _, h⟩
      · exact readStr_error_kind h
      rcases h with h | ⟨hh, _, h⟩
      · exact readStr_error_kind h
      rcases h with h | ⟨mi, _, h⟩
      · exact readStr_error_kind h
      rcases h with h | ⟨se, _, h⟩
      · exact readStr_error_kind h
      · simp at h
  | dateOptT key =>
      simp only [runStep, ebind_eq_error] at h
      rcases h with h | ⟨s, _, h⟩
      · exact readStr_error_kind h
      rcases h with h | ⟨y, _, h⟩
      · exact readStr_error_kind h
      rcases h with h | ⟨mo, _, h⟩
      · exact readStr_error_kind h
      rcases h with h | ⟨d, _, h⟩
      · exact readStr_error_kind h
      · simp at h
  | dateOptR key =>
      simp only [runStep, ebind_eq_error] at h
      rcases h with h | ⟨s, _, h⟩
      · exact readStr_error_kind h
      rcases h with h | ⟨y, _, h⟩
      · exact readStr_error_kind h
      rcases h with h | ⟨mo, _, h⟩
      · exact readStr_error_kind h
      rcases h with h | ⟨d, _, h⟩
      · exact readStr_error_kind h
      · simp at h
  | bkgc key =>
      simp only [runStep, ebind_eq_error] at h
      rcases h with h | ⟨bs, _, h⟩
      · exact sliceE_error_kind h
      · rcases bs with _ | ⟨b0, _ | ⟨b1, _ | ⟨b2, _ | _⟩⟩⟩
        · simp at h
          exact h.symm
        · simp at h
          exact h.symm
        · simp at h
          exact h.symm
        · simp at h
        · simp at h
          exact h.symm

/-- Any buffer shorter than the total width of a (non-empty) step
sequence makes the run abort with the index panic: the first step whose
slice leaves the buffer panics. -/
theorem runSteps_truncated {buf : List Nat} :
    ∀ {steps : List FieldStep} {m : FieldMap} {c : Nat}, steps ≠ [] →
      buf.length < c + stepsWidth steps →
      runSteps buf steps m c = .error .idxOOB := by
  intro steps
  induction steps with
  | nil => intro m c hne _; exact absurd rfl hne
  | cons st rest ih =>
      intro m c _ hlen
      rw [runSteps_cons]
      cases hres : runStep buf m c st with
      | error e =>
          have he := runStep_error_kind hres
          subst he
          rfl
      | ok p =>
          obtain ⟨hp2, hple⟩ := runStep_ok_bound hres
          rw [ebind_okL]
          have hw := stepsWidth_cons st rest
          by_cases hrest : rest = []
          · exfalso
            subst hrest
            have h0 : stepsWidth ([] : List FieldStep) = 0 := rfl
            omega
          · exact ih hrest (by omega)

/-- C10: TLV entries are inserted into the same `FieldMap` as the fixed
header fields under the raw 6-byte tag, so on `bufCollide` — whose
user-defined TLV entry carries the tag `UDHOFL` with value `XYZ` while
the fixed `UDHOFL` slot at byte 383 holds `001` — the decode succeeds
and the fixed field's value has been silently replaced by `XYZ`. -/
theorem c10_tlv_overwrites_fixed_field :
    parse_header bufCollide = .ok (okMap (parse_header bufCollide)) ∧
    bytesToString ((sliceB bufCollide 383 3).getD []) = "001" ∧
    getF (okMap (parse_header bufCollide)) "UDHOFL" = some "XYZ" :=
  ⟨by decide, by decide, by decide⟩

/-! ## Trimming lemmas (for the optional-field invariant) -/

/-- The head surviving a `dropWhile` fails the predicate. -/
theorem dropWhile_head?_not {p : Char → Bool} :
    ∀ {l : List Char} {x : Char}, (l.dropWhile p).head? = some x → p x = false := by
  intro l
  induction l with
  | nil => intro x h; simp [List.dropWhile] at h
  | cons a as ih =>
      intro x h
      by_cases hp : p a
      · rw [List.dropWhile_cons_of_pos hp] at h
        exact ih h
      · rw [List.dropWhile_cons_of_neg hp] at h
        simp only [List.head?_cons, Option.some.injEq] at h
        subst h
        exact Bool.eq_false_iff.mpr hp

/-- A list whose head fails the predicate is unchanged by `dropWhile`. -/
theorem dropWhile_eq_self_of_head {p : Char → Bool} {l : List Char}
    (h : ∀ x, l.head? = some x → p x = false) : l.dropWhile p = l := by
  cases l with
  | nil => rfl
  | cons a as =>
      have := h a rfl
      rw [List.dropWhile_cons_of_neg (by simp [this])]

/-- A member failing the predicate survives `dropWhile`. -/
theorem mem_dropWhile_of_neg {p : Char → Bool} :
    ∀ {l : List Char} {ch : Char}, ch ∈ l → p ch = false → ch ∈ l.dropWhile p := by
  intro l
  induction l with
  | nil => intro ch h _; simp at h
  | cons a as ih =>
      intro ch h hw
      by_cases hp : p a
      · rw [List.dropWhile_cons_of_pos hp]
        rcases List.mem_cons.mp h with rfl | h'
        · rw [hw] at hp; simp at hp
        · exact ih h' hw
      · rw [List.dropWhile_cons_of_neg hp]
        exact h

/-- Trimming is idempotent on character lists. -/
theorem trimChars_idem (l : List Char) : trimChars (trimChars l) = trimChars l := by
  unfold trimChars
  set a := l.dropWhile isWs with ha
  set b := a.reverse.dropWhile isWs with hb
  have hsplit : a.reverse.takeWhile isWs ++ a.reverse.dropWhile isWs = a.reverse :=
    List.takeWhile_append_dropWhile isWs a.reverse
  have haeq : a = b.reverse ++ (a.reverse.takeWhile isWs).reverse := by
    calc a = a.reverse.reverse := (List.reverse_reverse a).symm
    _ = (a.reverse.takeWhile isWs ++ a.reverse.dropWhile isWs).reverse := by rw [hsplit]
    _ = (a.reverse.dropWhile isWs).reverse ++ (a.reverse.takeWhile isWs).reverse := by
          rw [List.reverse_append]
    _ = b.reverse ++ (a.reverse.takeWhile isWs).reverse := by rw [← hb]
  have h1 : b.reverse.dropWhile isWs = b.reverse := by
    apply dropWhile_eq_self_of_head
    intro x hx
    have hhead : a.head? = some x := by
      rw [haeq, List.head?_append, hx]
      rfl
    exact dropWhile_head?_not (ha ▸ hhead)
  rw [h1, List.reverse_reverse]
  have h2 : b.dropWhile isWs = b := by
    apply dropWhile_eq_self_of_head
    intro x hx
    exact dropWhile_head?_not (hb ▸ hx)
  rw [h2]

/-- Trimming is idempotent on strings. -/
theorem trimAscii_idem (s : String) : trimAscii (trimAscii s) = trimAscii s := by
  unfold trimAscii
  exact congrArg String.mk (trimChars_idem s.data)

/-- A string containing a non-whitespace character does not trim to
the empty string. -/
theorem trimAscii_ne_empty_of_mem {s : String} {ch : Char}
    (hm : ch ∈ s.data) (hw : isWs ch = false) : trimAscii s ≠ "" := by
  intro hc
  have h0 : trimChars s.data = [] := by
    have := congrArg String.data hc
    simpa [trimAscii] using this
  unfold trimChars at h0
  rw [List.reverse_eq_nil_iff, List.dropWhile_eq_nil_iff] at h0
  have hch : ch ∈ s.data.dropWhile isWs := mem_dropWhile_of_neg hm hw
  have := h0 ch (by rw [List.mem_reverse]; exact hch)
  rw [hw] at this
  exact Bool.false_ne_true this

/-! ## Claim C8 — the optional-field omission invariant -/

/-- A slash sits in every decoded date composite. -/
theorem slash_mem_date (y mo d : String) :
    '/' ∈ (y ++ "/" ++ mo ++ "/" ++ d).data := by
  have h1 : ('/' : Char) ∈ ("/" : String).data := by decide
  simp only [String.data_append, List.mem_append]
  tauto

/-- A slash sits in every decoded date-time composite. -/
theorem slash_mem_dateTime (y mo d h mi se : String) :
    '/' ∈ (y ++ "/" ++ mo ++ "/" ++ d ++ " " ++ h ++ ":" ++ mi ++ ":" ++ se).data := by
  have h1 : ('/' : Char) ∈ ("/" : String).data := by decide
  simp only [String.data_append, List.mem_append]
  tauto

/-- The character `0` sits in every background-colour rendering. -/
theorem zero_mem_bkgc (h0 h1 h2 : String) :
    '0' ∈ ("0x" ++ h0 ++ h1 ++ h2).data := by
  have h1' : ('0' : Char) ∈ ("0x" : String).data := by decide
  simp only [String.data_append, List.mem_append]
  tauto

/-- Whether a step can unconditionally store a value for key `k` that
may be blank after trimming: only the raw and trimmed unconditional
inserts can (guarded steps check the trimmed slice first, and composite
date/time and colour values always contain a non-whitespace separator). -/
def mayBlank (st : FieldStep) (k : String) : Bool :=
  match st with
  | .raw key _ => key == k
  | .trimF key _ => key == k
  | _ => false

/-- Extending a map preserves the non-blank invariant for `k` provided
the value written at `k` (if any) is non-blank after trimming. -/
theorem insert_preserves_nonblank {m : FieldMap} {k : String} (key val : String)
    (hm : ∀ v, getF m k = some v → trimAscii v ≠ "")
    (hval : key = k → trimAscii val ≠ "") :
    ∀ v, getF (insertF m key val) k = some v → trimAscii v ≠ "" := by
  intro v hv
  by_cases hkk : key = k
  · subst hkk
    rw [getF_insertF_self] at hv
    cases hv
    exact hval rfl
  · rw [getF_insertF_ne m val hkk] at hv
    exact hm v hv

/-- Running any sequence of field steps preserves the invariant for a
key `k` that no step in the sequence can unconditionally blank: after
the run, a value present at `k` is non-empty after trimming. -/
theorem runSteps_guarded_nonblank {buf : List Nat} {k : String} :
    ∀ {steps : List FieldStep} {m : FieldMap} {c : Nat} {m' : FieldMap} {c' : Nat},
      runSteps buf steps m c = .ok (m', c') →
      (steps.all fun st => !(mayBlank st k)) = true →
      (∀ v, getF m k = some v → trimAscii v ≠ "") →
      ∀ v, getF m' k = some v → trimAscii v ≠ "" := by
  intro steps
  induction steps with
  | nil =>
      intro m c m' c' h _ hm
      simp only [runSteps, Except.ok.injEq, Prod.mk.injEq] at h
      rw [← h.1]
      exact hm
  | cons st rest ih =>
      intro m c m' c' h hall hm
      rw [runSteps_cons] at h
      simp only [List.all_cons, Bool.and_eq_true] at hall
      obtain ⟨hst, hrest⟩ := hall
      simp only [ebind_eq_ok] at h
      obtain ⟨p, hp, h⟩ := h
      refine ih h hrest ?_
      cases st with
      | raw key w =>
          simp only [runStep, ebind_eq_ok] at hp
          obtain ⟨s, _, hp⟩ := hp
          simp only [Except.ok.injEq] at hp
          subst hp
          refine insert_preserves_nonblank key s hm ?_
          intro hkk
          exfalso
          simp [mayBlank, beq_iff_eq.mpr hkk] at hst
      | trimF key w =>
          simp only [runStep, ebind_eq_ok] at hp
          obtain ⟨s, _, hp⟩ := hp
          simp only [Except.ok.injEq] at hp
          subst hp
          refine insert_preserves_nonblank key (trimAscii s) hm ?_
          intro hkk
          exfalso
          simp [mayBlank, beq_iff_eq.mpr hkk] at hst
      | optT key w =>
          simp only [runStep, ebind_eq_ok] at hp
          obtain ⟨s, _, hp⟩ := hp
          simp only [Except.ok.injEq] at hp
          subst hp
          by_cases hts : trimAscii s = ""
          · simpa [hts] using hm
          · have hres := insert_preserves_nonblank key (trimAscii s) hm
              (fun _ => by rw [trimAscii_idem]; exact hts)
            simpa [hts] using hres
      | optR key w =>
          simp only [runStep, ebind_eq_ok] at hp
          obtain ⟨s, _, hp⟩ := hp
          simp only [Except.ok.injEq] at hp
          subst hp
          by_cases hts : trimAscii s = ""
          · simpa [hts] using hm
          · have hres := insert_preserves_nonblank key s hm
              (fun _ => hts)
            simpa [hts] using hres
      | dateTime key =>
          simp only [runStep, ebind_eq_ok] at hp
          obtain ⟨y, _, mo, _, d, _, hh, _, mi, _, se, _, hp⟩ := hp
          simp only [Except.ok.injEq] at hp
          subst hp
          refine insert_preserves_nonblank key
            (y ++ "/" ++ mo ++ "/" ++ d ++ " " ++ hh ++ ":" ++ mi ++ ":" ++ se) hm ?_
          intro _
          exact trimAscii_ne_empty_of_mem (slash_mem_dateTime y mo d hh mi se) (by decide)
      | dateOptT key =>
          simp only [runStep, ebind_eq_ok] at hp
          obtain ⟨s, _, y, _, mo, _, d, _, hp⟩ := hp
          simp only [Except.ok.injEq] at hp
          subst hp
          by_cases hts : trimAscii s = ""
          · simpa [hts] using hm
          · have hres := insert_preserves_nonblank key
              (trimAscii (y ++ "/" ++ mo ++ "/" ++ d)) hm
              (fun _ => by
                rw [trimAscii_idem]
                exact trimAscii_ne_empty_of_mem (slash_mem_date y mo d) (by decide))
            simpa [hts] using hres
      | dateOptR key =>
          simp only [runStep, ebind_eq_ok] at hp
          obtain ⟨s, _, y, _, mo, _, d, _, hp⟩ := hp
          simp only [Except.ok.injEq] at hp
          subst hp
          by_cases hts : trimAscii s = ""
          · simpa [hts] using hm
          · have hres := insert_preserves_nonblank key
              (y ++ "/" ++ mo ++ "/" ++ d) hm
              (fun _ => trimAscii_ne_empty_of_mem (slash_mem_date y mo d) (by decide))
            simpa [hts] using hres
      | bkgc key =>
          simp only [runStep, ebind_eq_ok] at hp
          obtain ⟨bs, _, hp⟩ := hp
          match bs with
          | [] => simp at hp
          | [_] => simp at hp
          | [_, _] => simp at hp
          | b0 :: b1 :: b2 :: _ :: _ => simp at hp
          | [b0, b1, b2] =>
              simp only [Except.ok.injEq] at hp
              subst hp
              refine insert_preserves_nonblank key
                ("0x" ++ hex2 b0 ++ hex2 b1 ++ hex2 b2) hm ?_
              intro _
              exact trimAscii_ne_empty_of_mem
                (zero_mem_bkgc (hex2 b0) (hex2 b1) (hex2 b2)) (by decide)

/-- C8, counterexample: on `bufMin` the decode succeeds and the file
header contains the key `FSCOP` mapped to the empty string — the
source stores the trimmed value of the blank `FSCOP` slot
unconditionally, so a present field *can* be empty after trimming, and
blank slots of unconditional fields are not omitted. -/
theorem c8_counterexample :
    nitf_new bufMin = .ok (okMd (nitf_new bufMin)) ∧
    getF (okMd (nitf_new bufMin)).file_header "FSCOP" = some "" :=
  ⟨by decide, by decide⟩

/-- C8, amended: the omission invariant holds exactly for the guarded
fields: in the image subheader and in the fixed-field portion of the
file header, every key that no step stores unconditionally (the
guarded optional fields and the composite date/time and colour fields)
is, when present, non-empty after trimming — blank guarded slots are
omitted.  Unconditionally stored fields (e.g. `FSCOP`, `FSCLAS`,
`FHDR`, `IID1`) may be blank or empty, and TLV entries, inserted later
into the same header map, may also carry blank values or overwrite
guarded keys. -/
theorem c8_guarded_fields_nonblank :
    (∀ (buf : List Nat) (off : Nat) (m : FieldMap),
      parse_image_subheader buf off = .ok m →
      ∀ k, (imageSteps.all fun st => !(mayBlank st k)) = true →
      ∀ v, getF m k = some v → trimAscii v ≠ "") ∧
    (∀ (buf : List Nat) (m : FieldMap) (c : Nat),
      runSteps buf fileFixedSteps [] 0 = .ok (m, c) →
      ∀ k, (fileFixedSteps.all fun st => !(mayBlank st k)) = true →
      ∀ v, getF m k = some v → trimAscii v ≠ "") := by
  constructor
  · intro buf off m h k hall
    rw [parse_image_subheader, emap_eq_ok] at h
    obtain ⟨p, hp, hm⟩ := h
    subst hm
    exact runSteps_guarded_nonblank hp hall (fun v hv => by simp [getF] at hv)
  · intro buf m c h k hall
    exact runSteps_guarded_nonblank h hall (fun v hv => by simp [getF] at hv)

/-- C8, witness: the amended theorem applied to the fixed-field run on
`bufMin`, at the guarded key `FTITLE`, whose stored value `HELLO` is
non-empty after trimming. -/
theorem c8_guarded_fields_nonblank_witness :
    getF (okPair (runSteps bufMin fileFixedSteps [] 0)).1 "FTITLE" = some "HELLO" ∧
    trimAscii "HELLO" ≠ "" :=
  ⟨by decide,
   c8_guarded_fields_nonblank.2 bufMin
     (okPair (runSteps bufMin fileFixedSteps [] 0)).1
     (okPair (runSteps bufMin fileFixedSteps [] 0)).2
     (by decide) "FTITLE" (by decide) "HELLO" (by decide)⟩

/-! ## Claims C5 and C6 — the TLV areas -/

/-- The TLV loop only returns once the consumed byte count `i` has
reached or passed the declared bound; there is no exactness check and
no error for an entry that crosses the boundary — the crossing entry is
consumed in full. -/
theorem tlvLoop_ok_ge {buf : List Nat} {cur bound : Nat} :
    ∀ {fuel : Nat} {m : FieldMap} {i : Nat} {m' : FieldMap} {i' : Nat},
      tlvLoop buf cur bound fuel m i = .ok (m', i') → bound ≤ i' := by
  intro fuel
  induction fuel with
  | zero => intro m i m' i' h; simp [tlvLoop] at h
  | succ fuel ih =>
      intro m i m' i' h
      rw [tlvLoop] at h
      by_cases hib : i < bound
      · rw [if_pos hib] at h
        simp only [ebind_eq_ok] at h
        obtain ⟨tagB, _, lenB, _, h⟩ := h
        split at h
        · simp at h
        · simp only [ebind_eq_ok] at h
          obtain ⟨vB, _, h⟩ := h
          exact ih h
      · rw [if_neg hib] at h
        simp only [Except.ok.injEq, Prod.mk.injEq] at h
        omega

/-- C6, counterexample: `bufTLV` declares `UDHDL="00011"` but its single
TLV entry (6-byte tag, 5-byte length field, 5 value bytes) consumes 16
bytes, crossing the declared 11-byte boundary; the decode nevertheless
succeeds — there is no `MalformedTLV` error in the code. -/
theorem c6_counterexample :
    parse_header bufTLV = .ok (okMap (parse_header bufTLV)) ∧
    manualDec ((sliceB bufTLV 378 5).getD []) = 11 ∧
    readTLV bufTLV 386 11 [] = .ok ([("TAGAAA", "ABCDE")], 16) :=
  ⟨by decide, by decide, by decide⟩

/-- C6, amended: a TLV entry whose declared length crosses the block's
declared total-length boundary is consumed in full and the loop then
stops; consumption is at least — not exactly — the declared bound, and
no error is raised for the crossing. -/
theorem c6_tlv_no_boundary_error (buf : List Nat) (cur bound : Nat)
    (m m' : FieldMap) (consumed : Nat)
    (h : readTLV buf cur bound m = .ok (m', consumed)) :
    bound ≤ consumed :=
  tlvLoop_ok_ge h

/-- C6, witness: the amended theorem applied to the user-defined TLV
block of `bufTLV` (declared bound 11, consumed 16). -/
theorem c6_tlv_no_boundary_error_witness :
    11 ≤ (okPair (readTLV bufTLV 386 11 [])).2 :=
  c6_tlv_no_boundary_error bufTLV 386 11 []
    (okPair (readTLV bufTLV 386 11 [])).1
    (okPair (readTLV bufTLV 386 11 [])).2 (by decide)

/-- What a successful user-defined header area run guarantees: the
5-byte `UDHDL` field is read at `c`; when its manual decimal value is
not positive the area contributes only that field and the cursor moves
to `c + 5`; when it is positive the 3-byte `UDHOFL` field is read
first, then the TLV loop runs with bound exactly the `UDHDL` value,
consuming at least that many bytes, and the cursor advances by the
loop's consumption. -/
def UDAreaOk (buf : List Nat) (m : FieldMap) (c : Nat) (out : FieldMap × Nat) : Prop :=
  ∃ bs, sliceB buf c 5 = some bs ∧
    (¬ manualDec bs > 0 →
      out = (insertF m "UDHDL" (bytesToString bs), c + 5)) ∧
    (manualDec bs > 0 →
      ∃ s3 m2 i, sliceB buf (c + 5) 3 = some s3 ∧
        readTLV buf (c + 8) (manualDec bs).toNat
          (insertF (insertF m "UDHDL" (bytesToString bs)) "UDHOFL" (bytesToString s3))
          = .ok (m2, i) ∧
        (manualDec bs).toNat ≤ i ∧ out = (m2, c + 8 + i))

/-- What a successful extended header area run guarantees: as for the
user-defined area, except that the loop bound is the `XHDL` value
*minus the 3 bytes of the `XHOFL` field* (whose trimmed value is
inserted before the loop), and an `XHDL` value below 3 can never
succeed (the `usize` subtraction panics). -/
def XAreaOk (buf : List Nat) (m : FieldMap) (c : Nat) (out : FieldMap) : Prop :=
  ∃ bs, sliceB buf c 5 = some bs ∧
    (¬ manualDec bs > 0 → out = insertF m "XHDL" (bytesToString bs)) ∧
    (manualDec bs > 0 →
      ∃ s3 m2 i, sliceB buf (c + 5) 3 = some s3 ∧
        3 ≤ manualDec bs ∧
        readTLV buf (c + 8) ((manualDec bs).toNat - 3)
          (insertF (insertF m "XHDL" (bytesToString bs)) "XHOFL"
            (trimAscii (bytesToString s3)))
          = .ok (m2, i) ∧
        (manualDec bs).toNat - 3 ≤ i ∧ out = m2)

/-- C5, amended: in every successful decode the user-defined area reads
`UDHOFL` before its TLV loop, whose bound is the full `UDHDL` value,
while the extended area reads `XHOFL` before its TLV loop, whose bound
is `XHDL - 3`; each loop consumes *at least* its bound (exactly the
bound only when the entries tile the declared area); and when `UDHDL`
parses to a non-positive value the user-defined phase contributes only
the `UDHDL` field itself — no `UDHOFL` key and no TLV entries. -/
theorem c5_tlv_area_call_sites :
    (∀ (buf : List Nat) (m : FieldMap) (c : Nat) (out : FieldMap × Nat),
      parseUDArea buf m c = .ok out → UDAreaOk buf m c out) ∧
    (∀ (buf : List Nat) (m : FieldMap) (c : Nat) (out : FieldMap),
      parseXArea buf m c = .ok out → XAreaOk buf m c out) := by
  constructor
  · intro buf m c out h
    rw [parseUDArea] at h
    simp only [ebind_eq_ok] at h
    obtain ⟨bs, hbs, h⟩ := h
    rw [sliceE] at hbs
    cases hsl : sliceB buf c 5 with
    | none => rw [hsl] at hbs; simp at hbs
    | some bs' =>
        rw [hsl] at hbs
        simp only [Except.ok.injEq] at hbs
        subst hbs
        refine ⟨bs', hsl, ?_, ?_⟩ <;> intro hpos
        · rw [if_neg hpos] at h
          simp only [Except.ok.injEq] at h
          exact h.symm
        · rw [if_pos hpos] at h
          simp only [ebind_eq_ok] at h
          obtain ⟨s3, hs3, p, hp, h⟩ := h
          rw [sliceE] at hs3
          cases hsl3 : sliceB buf (c + 5) 3 with
          | none => rw [hsl3] at hs3; simp at hs3
          | some s3' =>
              rw [hsl3] at hs3
              simp only [Except.ok.injEq] at hs3
              subst hs3
              simp only [Except.ok.injEq] at h
              exact ⟨s3', p.1, p.2, rfl, hp, tlvLoop_ok_ge hp, h.symm⟩
  · intro buf m c out h
    rw [parseXArea] at h
    simp only [ebind_eq_ok] at h
    obtain ⟨bs, hbs, h⟩ := h
    rw [sliceE] at hbs
    cases hsl : sliceB buf c 5 with
    | none => rw [hsl] at hbs; simp at hbs
    | some bs' =>
        rw [hsl] at hbs
        simp only [Except.ok.injEq] at hbs
        subst hbs
        refine ⟨bs', hsl, ?_, ?_⟩ <;> intro hpos
        · rw [if_neg hpos] at h
          simp only [Except.ok.injEq] at h
          exact h.symm
        · rw [if_pos hpos] at h
          simp only [ebind_eq_ok] at h
          obtain ⟨s3, hs3, h⟩ := h
          rw [sliceE] at hs3
          cases hsl3 : sliceB buf (c + 5) 3 with
          | none => rw [hsl3] at hs3; simp at hs3
          | some s3' =>
              rw [hsl3] at hs3
              simp only [Except.ok.injEq] at hs3
              subst hs3
              by_cases h3 : manualDec bs' < 3
              · rw [if_pos h3] at h; simp at h
              · rw [if_neg h3] at h
                simp only [ebind_eq_ok] at h
                obtain ⟨p, hp, h⟩ := h
                simp only [Except.ok.injEq] at h
                exact ⟨s3', p.1, p.2, rfl, by omega, hp, tlvLoop_ok_ge hp, h.symm⟩

/-- C5, witness: the call-site theorem applied to the concrete areas of
`bufTLV`: the user-defined area at cursor 378 (`UDHDL="00011"`, bound
11, 16 consumed) and the extended area at cursor 402 (`XHDL="00000"`,
skipped entirely — no `XHOFL`, no entries). -/
theorem c5_tlv_area_call_sites_witness :
    UDAreaOk bufTLV [] 378 (okPair (parseUDArea bufTLV [] 378)) ∧
    XAreaOk bufTLV [] 402 (okMap (parseXArea bufTLV [] 402)) :=
  ⟨c5_tlv_area_call_sites.1 bufTLV [] 378 (okPair (parseUDArea bufTLV [] 378))
      (by decide),
   c5_tlv_area_call_sites.2 bufTLV [] 402 (okMap (parseXArea bufTLV [] 402))
      (by decide)⟩

/-- C5, counterexample: on `bufTLV` the user-defined TLV loop consumes
16 bytes although `UDHDL` declares 11 — the decode succeeds, so the
loop does not consume *exactly* the declared length. -/
theorem c5_counterexample :
    parse_header bufTLV = .ok (okMap (parse_header bufTLV)) ∧
    manualDec ((sliceB bufTLV 378 5).getD []) = 11 ∧
    (okPair (readTLV bufTLV 386 11 [])).2 = 16 ∧
    Nat.beq 16 11 = false :=
  ⟨by decide, by decide, by decide, by decide⟩

/-! ## Claim C9 — byte layout of the segment tables -/

/-- Inversion of a successful slice. -/
theorem sliceE_eq_ok {buf : List Nat} {c w : Nat} {bs : List Nat} :
    sliceE buf c w = .ok bs ↔ sliceB buf c w = some bs := by
  unfold sliceE
  cases h : sliceB buf c w <;> simp

/-- `insertF` folded over an append splits into two folds. -/
theorem insertList_append (m : FieldMap) (l1 l2 : List (String × String)) :
    insertList m (l1 ++ l2) = insertList (insertList m l1) l2 :=
  List.foldl_append _ _ _ _

/-- Follows the claim's words: one segment-table group is `count` pairs
of fixed widths `w1` then `w2`, the `j`-th pair of index `idx + j` read
contiguously at `c + (w1 + w2) * j`, each pair contributing its
`pre1|idx`-keyed subheader length and `pre2|idx`-keyed segment
length. -/
def specGroupFields (buf : List Nat) (pre1 pre2 : String) (w1 w2 : Nat) :
    Nat → Nat → Nat → Option (List (String × String))
  | 0, _, _ => some []
  | k + 1, idx, c => do
      let b1 ← sliceB buf c w1
      let b2 ← sliceB buf (c + w1) w2
      let rest ← specGroupFields buf pre1 pre2 w1 w2 k (idx + 1) (c + (w1 + w2))
      some ((pre1 ++ pad3 idx, bytesToString b1)
            :: (pre2 ++ pad3 idx, bytesToString b2) :: rest)

/-- The source's pair loop realises exactly the spec-side group list,
and advances the cursor by `(w1 + w2) * count`. -/
theorem pairsLoop_spec {buf : List Nat} {pre1 pre2 : String} {w1 w2 : Nat} :
    ∀ {k idx : Nat} {m : FieldMap} {c : Nat} {m' : FieldMap} {c' : Nat},
      pairsLoop buf pre1 pre2 w1 w2 k idx m c = .ok (m', c') →
      ∃ l, specGroupFields buf pre1 pre2 w1 w2 k idx c = some l ∧
        m' = insertList m l ∧ c' = c + (w1 + w2) * k := by
  intro k
  induction k with
  | zero =>
      intro idx m c m' c' h
      simp only [pairsLoop, Except.ok.injEq, Prod.mk.injEq] at h
      exact ⟨[], rfl, h.1.symm, by omega⟩
  | succ k ih =>
      intro idx m c m' c' h
      simp only [pairsLoop, ebind_eq_ok] at h
      obtain ⟨b1, hb1, b2, hb2, h⟩ := h
      rw [sliceE_eq_ok] at hb1 hb2
      obtain ⟨l, hl, hm, hc⟩ := ih h
      refine ⟨(pre1 ++ pad3 idx, bytesToString b1)
            :: (pre2 ++ pad3 idx, bytesToString b2) :: l, ?_, ?_, ?_⟩
      · simp only [specGroupFields, hb1, hb2, hl]
        rfl
      · rw [hm]; rfl
      · rw [Nat.mul_succ]; omega

/-- The source's group parser: the 3-byte count inserted raw, then
exactly the spec-side pair list, the cursor landing `3 + (w1+w2)*count`
further. -/
theorem parseGroup_spec {buf : List Nat} {ckey pre1 pre2 : String} {w1 w2 : Nat}
    {m : FieldMap} {c : Nat} {m' : FieldMap} {c' : Nat}
    (h : parseGroup buf ckey pre1 pre2 w1 w2 m c = .ok (m', c')) :
    ∃ bs l, sliceB buf c 3 = some bs ∧
      specGroupFields buf pre1 pre2 w1 w2 (manualDec bs).toNat 1 (c + 3) = some l ∧
      m' = insertList m ((ckey, bytesToString bs) :: l) ∧
      c' = c + 3 + (w1 + w2) * (manualDec bs).toNat := by
  rw [parseGroup] at h
  simp only [ebind_eq_ok] at h
  obtain ⟨bs, hbs, h⟩ := h
  rw [sliceE_eq_ok] at hbs
  obtain ⟨l, hl, hm, hc⟩ := pairsLoop_spec h
  exact ⟨bs, l, hbs, hl, by rw [hm]; rfl, by omega⟩

/-- The byte layout of the file header's segment tables relative to
their start cursor `c`: each group is a 3-byte decimal count followed
by that many `(subheader length, segment length)` pairs of the
kind-specific widths — image 6+10, graphic 4+6, text 4+5,
data-extension 4+9, reserved 4+7 — consumed in the order image,
graphic, (3-byte reserved `NUMX` field), text, data-extension,
reserved-extension, the map extended by exactly those entries and the
cursor landing at the stated total. -/
def SegTableLayout (buf : List Nat) (m : FieldMap) (c : Nat)
    (m' : FieldMap) (c' : Nat) : Prop :=
  ∃ bI lI bS lS bX bT lT bD lD bR lR,
    sliceB buf c 3 = some bI ∧
    specGroupFields buf "LISH" "LI" 6 10 (manualDec bI).toNat 1 (c + 3) = some lI ∧
    sliceB buf (c + 3 + 16 * (manualDec bI).toNat) 3 = some bS ∧
    specGroupFields buf "LSSH" "LS" 4 6 (manualDec bS).toNat 1
      (c + 6 + 16 * (manualDec bI).toNat) = some lS ∧
    sliceB buf (c + 6 + 16 * (manualDec bI).toNat + 10 * (manualDec bS).toNat) 3
      = some bX ∧
    sliceB buf (c + 9 + 16 * (manualDec bI).toNat + 10 * (manualDec bS).toNat) 3
      = some bT ∧
    specGroupFields buf "LTSH" "LT" 4 5 (manualDec bT).toNat 1
      (c + 12 + 16 * (manualDec bI).toNat + 10 * (manualDec bS).toNat) = some lT ∧
    sliceB buf (c + 12 + 16 * (manualDec bI).toNat + 10 * (manualDec bS).toNat
      + 9 * (manualDec bT).toNat) 3 = some bD ∧
    specGroupFields buf "LDSH" "LD" 4 9 (manualDec bD).toNat 1
      (c + 15 + 16 * (manualDec bI).toNat + 10 * (manualDec bS).toNat
        + 9 * (manualDec bT).toNat) = some lD ∧
    sliceB buf (c + 15 + 16 * (manualDec bI).toNat + 10 * (manualDec bS).toNat
      + 9 * (manualDec bT).toNat + 13 * (manualDec bD).toNat) 3 = some bR ∧
    specGroupFields buf "LRESH" "LRE" 4 7 (manualDec bR).toNat 1
      (c + 18 + 16 * (manualDec bI).toNat + 10 * (manualDec bS).toNat
        + 9 * (manualDec bT).toNat + 13 * (manualDec bD).toNat) = some lR ∧
    m' = insertList m ((("NUMI", bytesToString bI) :: lI) ++
          (("NUMS", bytesToString bS) :: lS) ++
          [("NUMX", bytesToString bX)] ++
          (("NUMT", bytesToString bT) :: lT) ++
          (("NUMDES", bytesToString bD) :: lD) ++
          (("NUMRES", bytesToString bR) :: lR)) ∧
    c' = c + 18 + 16 * (manualDec bI).toNat + 10 * (manualDec bS).toNat
      + 9 * (manualDec bT).toNat + 13 * (manualDec bD).toNat
      + 11 * (manualDec bR).toNat

/-- C9: every successful segment-table parse reads exactly the claimed
byte layout: 3-byte counts, pair widths 6+10 (image), 4+6 (graphic),
4+5 (text), 4+9 (data-extension), 4+7 (reserved), consumed in that
order (with the 3-byte reserved `NUMX` field between the graphic and
text groups, as in the source). -/
theorem c9_segment_table_layout (buf : List Nat) (m : FieldMap) (c : Nat)
    (m' : FieldMap) (c' : Nat)
    (h : parseSegTables buf m c = .ok (m', c')) :
    SegTableLayout buf m c m' c' := by
  rw [parseSegTables] at h
  simp only [ebind_eq_ok] at h
  obtain ⟨p1, hp1, p2, hp2, bx, hbx, p3, hp3, p4, hp4, h⟩ := h
  obtain ⟨bI, lI, hbI, hlI, hm1, hc1⟩ := parseGroup_spec hp1
  obtain ⟨bS, lS, hbS, hlS, hm2, hc2⟩ := parseGroup_spec hp2
  rw [sliceE_eq_ok] at hbx
  obtain ⟨bT, lT, hbT, hlT, hm3, hc3⟩ := parseGroup_spec hp3
  obtain ⟨bD, lD, hbD, hlD, hm4, hc4⟩ := parseGroup_spec hp4
  obtain ⟨bR, lR, hbR, hlR, hm5, hc5⟩ := parseGroup_spec h
  have e1 : p1.2 = c + 3 + 16 * (manualDec bI).toNat := by omega
  have e2 : p2.2 = c + 6 + 16 * (manualDec bI).toNat + 10 * (manualDec bS).toNat := by
    rw [hc2, e1]; omega
  have e3 : p3.2 = c + 12 + 16 * (manualDec bI).toNat + 10 * (manualDec bS).toNat
      + 9 * (manualDec bT).toNat := by
    rw [hc3, e2]; omega
  have e4 : p4.2 = c + 15 + 16 * (manualDec bI).toNat + 10 * (manualDec bS).toNat
      + 9 * (manualDec bT).toNat + 13 * (manualDec bD).toNat := by
    rw [hc4, e3]; omega
  refine ⟨bI, lI, bS, lS, bx, bT, lT, bD, lD, bR, lR,
    hbI, ?_, ?_, ?_, ?_, ?_, ?_, ?_, ?_, ?_, ?_, ?_, ?_⟩
  · exact hlI
  · rw [← e1]; exact hbS
  · rw [show c + 6 + 16 * (manualDec bI).toNat = p1.2 + 3 from by omega]
    exact hlS
  · rw [← e2]; exact hbx
  · rw [show c + 9 + 16 * (manualDec bI).toNat + 10 * (manualDec bS).toNat
        = p2.2 + 3 from by omega]
    exact hbT
  · rw [show c + 12 + 16 * (manualDec bI).toNat + 10 * (manualDec bS).toNat
        = p2.2 + 3 + 3 from by omega]
    exact hlT
  · rw [← e3]; exact hbD
  · rw [show c + 15 + 16 * (manualDec bI).toNat + 10 * (manualDec bS).toNat
        + 9 * (manualDec bT).toNat = p3.2 + 3 from by omega]
    exact hlD
  · rw [← e4]; exact hbR
  · rw [show c + 18 + 16 * (manualDec bI).toNat + 10 * (manualDec bS).toNat
        + 9 * (manualDec bT).toNat + 13 * (manualDec bD).toNat = p4.2 + 3 from by omega]
    exact hlR
  · rw [hm5, hm4, hm3, hm2, hm1]
    simp only [insertList_append]
    rfl
  · rw [hc5, e4]; omega

/-- C9, witness: the layout theorem applied to the segment tables of
`bufMin`, parsed at cursor 360 after the fixed fields. -/
theorem c9_segment_table_layout_witness :
    SegTableLayout bufMin (okPair (runSteps bufMin fileFixedSteps [] 0)).1 360
      (okPair (parseSegTables bufMin
        (okPair (runSteps bufMin fileFixedSteps [] 0)).1 360)).1
      (okPair (parseSegTables bufMin
        (okPair (runSteps bufMin fileFixedSteps [] 0)).1 360)).2 :=
  c9_segment_table_layout bufMin (okPair (runSteps bufMin fileFixedSteps [] 0)).1 360
    (okPair (parseSegTables bufMin
      (okPair (runSteps bufMin fileFixedSteps [] 0)).1 360)).1
    (okPair (parseSegTables bufMin
      (okPair (runSteps bufMin fileFixedSteps [] 0)).1 360)).2
    (by decide)

/-! ## Claim C3 — output order depends on the channel arrival order -/

/-- C3: the source collects each kind's subheaders from an mpsc channel
fed by a rayon parallel iterator, in arrival order; it never re-sequences
by segment index.  Modelling the arrival order as a reordering
parameter, the in-order schedule and the reversed schedule both decode
`bufSched` successfully but produce `image_subheaders` sequences whose
first elements carry different `IID1` values (`IMAGEA` vs `IMAGEB`),
so the output is not re-sequenced by original index and is not
schedule-independent. -/
theorem c3_order_depends_on_schedule :
    ((okMd (nitf_new_sched (fun l => l) (fun l => l) (fun l => l) (fun l => l)
        bufSched)).image_subheaders.head?).bind (fun m => getF m "IID1")
      = some "IMAGEA    " ∧
    ((okMd (nitf_new_sched (fun l => l.reverse) (fun l => l) (fun l => l) (fun l => l)
        bufSched)).image_subheaders.head?).bind (fun m => getF m "IID1")
      = some "IMAGEB    " ∧
    nitf_new_sched (fun l => l.reverse) (fun l => l) (fun l => l) (fun l => l) bufSched
      = .ok (okMd (nitf_new_sched (fun l => l.reverse) (fun l => l) (fun l => l)
          (fun l => l) bufSched)) :=
  ⟨by decide, by decide, by decide⟩
